import Mathlib

set_option maxHeartbeats 1000000
set_option maxRecDepth 10000

/-!
# Verification of the `SubotaiHash` identifier module

Shallow embedding of `src/src/hash/mod.rs` from the `subotai` repository:
the 160-bit `SubotaiHash` identifier and its operations. A byte (`u8`) is
`Fin 256`; the Rust array `raw : [u8; HASH_SIZE_BYTES]` (little endian,
`HASH_SIZE_BYTES = 20`) is a function `Fin 20 → Fin 256`.
-/

/-- `pub const HASH_SIZE : usize = 160;` -/
def HASH_SIZE : Nat := 160

/-- `pub const HASH_SIZE_BYTES : usize = HASH_SIZE / 8;` (= 20). -/
def HASH_SIZE_BYTES : Nat := HASH_SIZE / 8

/-- The `SubotaiHash` struct: a little endian array of 20 bytes.
In the definitions below the constants `HASH_SIZE = 160` and
`HASH_SIZE_BYTES = 20` appear as literals. -/
structure SubotaiHash where
  raw : Fin 20 → Fin 256
deriving DecidableEq

theorem SubotaiHash.ext_raw {a b : SubotaiHash} (h : a.raw = b.raw) : a = b := by
  cases a; cases b; simpa using h

/-- `blank()`: every bit set to 0. -/
def SubotaiHash.blank : SubotaiHash := ⟨fun _ => 0⟩

/-- `random()`: in the source the line `thread_rng().fill_bytes(&mut hash.raw)`
is commented out, so the function builds a blank hash and returns it
unchanged. The embedding reproduces the code as written. -/
def SubotaiHash.random : Unit → SubotaiHash := fun _ => SubotaiHash.blank

/-- XOR of two bytes (`u8` `^`): bitwise xor, closed under 256. -/
def byteXor (a b : Fin 256) : Fin 256 :=
  ⟨a.val ^^^ b.val, by
    have h : a.val ^^^ b.val < 2 ^ 8 :=
      Nat.xor_lt_two_pow (by simp) (by simp)
    simpa using h⟩

/-- `BitXor for &SubotaiHash`: `multizip` writes `a ^ b` byte-wise into a
blank result hash. -/
def SubotaiHash.xorRef (a b : SubotaiHash) : SubotaiHash :=
  ⟨fun i => byteXor (a.raw i) (b.raw i)⟩

/-- `BitXor for SubotaiHash` (consuming): `*a ^= *b` byte-wise in place over
`self.raw.iter_mut().zip(rhs.raw.iter())`. -/
def SubotaiHash.xorOwn (a b : SubotaiHash) : SubotaiHash :=
  ⟨fun i => byteXor (a.raw i) (b.raw i)⟩

theorem byteXor_comm (a b : Fin 256) : byteXor a b = byteXor b a := by
  apply Fin.ext; simp [byteXor, Nat.xor_comm]

theorem byteXor_assoc (a b c : Fin 256) :
    byteXor (byteXor a b) c = byteXor a (byteXor b c) := by
  apply Fin.ext; simp [byteXor, Nat.xor_assoc]

theorem byteXor_self (a : Fin 256) : byteXor a a = 0 := by
  apply Fin.ext; simp [byteXor]

theorem byteXor_zero (a : Fin 256) : byteXor a 0 = a := by
  apply Fin.ext; simp [byteXor]

theorem zero_byteXor (a : Fin 256) : byteXor 0 a = a := by
  apply Fin.ext; simp [byteXor]

/-- C3: XOR of identifiers is a closed binary operation (by the type of
`SubotaiHash.xorRef`) that is commutative, associative, self-inverse
(`a XOR a = blank()`) and has `blank()` as identity (`a XOR blank() = a`). -/
theorem xor_algebra :
    (∀ a b : SubotaiHash, a.xorRef b = b.xorRef a) ∧
    (∀ a b c : SubotaiHash, (a.xorRef b).xorRef c = a.xorRef (b.xorRef c)) ∧
    (∀ a : SubotaiHash, a.xorRef a = SubotaiHash.blank) ∧
    (∀ a : SubotaiHash, a.xorRef SubotaiHash.blank = a) := by
  refine ⟨?_, ?_, ?_, ?_⟩ <;> intros <;>
    apply SubotaiHash.ext_raw <;> funext i <;>
    simp [SubotaiHash.xorRef, SubotaiHash.blank, byteXor_comm, byteXor_assoc,
          byteXor_self, byteXor_zero, zero_byteXor]

/-- C8: the non-consuming XOR (`&a ^ &b`) and the consuming XOR (`a ^ b`)
yield identical results. -/
theorem xorRef_eq_xorOwn : ∀ a b : SubotaiHash, a.xorRef b = a.xorOwn b :=
  fun _ _ => rfl

/-- Spec-side view of a single bit: bit `i` of the hash, little endian
(`i / 8` selects the byte, `i % 8` the bit inside it); `false` outside the
160-bit range. -/
def SubotaiHash.testBit (h : SubotaiHash) (i : Nat) : Bool :=
  if hi : i < 160 then (h.raw ⟨i / 8, by omega⟩).val.testBit (i % 8) else false

/-- `flip_bit(position)`: a silent no-op for `position >= HASH_SIZE`,
otherwise `raw[position / 8] ^= 1 << (position % 8)`. -/
def SubotaiHash.flip_bit (h : SubotaiHash) (position : Nat) : SubotaiHash :=
  if hp : position ≥ 160 then h
  else
    ⟨Function.update h.raw ⟨position / 8, by omega⟩
      (byteXor (h.raw ⟨position / 8, by omega⟩)
        ⟨1 <<< (position % 8), by
          rw [Nat.shiftLeft_eq, one_mul]
          exact lt_of_lt_of_le
            (Nat.pow_lt_pow_right one_lt_two (Nat.mod_lt _ (by norm_num)))
            (by norm_num)⟩)⟩

theorem byteXor_cancel (x c : Fin 256) : byteXor (byteXor x c) c = x := by
  rw [byteXor_assoc, byteXor_self, byteXor_zero]

theorem testBit_flip_bit (h : SubotaiHash) (p q : Nat) (hp : p < 160) :
    (h.flip_bit p).testBit q = if q = p then !h.testBit q else h.testBit q := by
  have hnp : ¬ p ≥ 160 := by omega
  by_cases hq : q < 160
  · simp only [SubotaiHash.flip_bit, dif_neg hnp, SubotaiHash.testBit, dif_pos hq]
    by_cases hbyte : q / 8 = p / 8
    · have hfin : (⟨q / 8, by omega⟩ : Fin 20) = ⟨p / 8, by omega⟩ := by
        simpa [Fin.ext_iff] using hbyte
      rw [hfin, Function.update_same]
      simp only [byteXor]
      have hshl : (1 <<< (p % 8)) = 2 ^ (p % 8) := by
        rw [Nat.shiftLeft_eq, one_mul]
      rw [Nat.testBit_xor, hshl, Nat.testBit_two_pow]
      by_cases hqp : q = p
      · subst hqp; simp
      · have hmod : p % 8 ≠ q % 8 := by omega
        simp [hmod, hqp]
    · have hfin : (⟨q / 8, by omega⟩ : Fin 20) ≠ ⟨p / 8, by omega⟩ := by
        simpa [Fin.ext_iff] using hbyte
      rw [Function.update_noteq hfin]
      have hqp : q ≠ p := by omega
      simp [hqp]
  · have hqp : q ≠ p := by omega
    simp [SubotaiHash.testBit, dif_neg hq, hqp]

theorem flip_bit_flip_bit (h : SubotaiHash) (p : Nat) :
    (h.flip_bit p).flip_bit p = h := by
  by_cases hp : p ≥ 160
  · simp [SubotaiHash.flip_bit, dif_pos hp]
  · apply SubotaiHash.ext_raw
    simp only [SubotaiHash.flip_bit, dif_neg hp]
    rw [Function.update_same, Function.update_idem, byteXor_cancel,
        Function.update_eq_self]

/-- C6: for `p < 160`, `flip_bit p` toggles exactly the bit at position `p`
and leaves every other bit unchanged, so applying it twice restores the
original identifier; for `p ≥ 160` it is a silent no-op. -/
theorem flip_bit_spec :
    (∀ (h : SubotaiHash) (p : Nat), p < 160 →
      ((h.flip_bit p).testBit p = !h.testBit p) ∧
      (∀ q : Nat, q ≠ p → (h.flip_bit p).testBit q = h.testBit q) ∧
      ((h.flip_bit p).flip_bit p = h)) ∧
    (∀ (h : SubotaiHash) (p : Nat), 160 ≤ p → h.flip_bit p = h) := by
  constructor
  · intro h p hp
    refine ⟨?_, ?_, flip_bit_flip_bit h p⟩
    · rw [testBit_flip_bit h p p hp]; simp
    · intro q hq
      rw [testBit_flip_bit h p q hp]; simp [hq]
  · intro h p hp
    simp [SubotaiHash.flip_bit, hp]

/-- Helper for `height()`: the Rust expression
`self.raw.iter().enumerate().rev().find(|&pair| *pair.1 != 0)`, i.e. scan
byte indices `k-1, k-2, …, 0` and return the first whose byte is nonzero. -/
def findTopByte (h : SubotaiHash) : Nat → Option (Fin 20)
  | 0 => none
  | k + 1 =>
    if hk : k < 20 then
      if (h.raw ⟨k, hk⟩).val ≠ 0 then some ⟨k, hk⟩ else findTopByte h k
    else findTopByte h k

/-- Helper for `height()`: the loop `for bit in (0..8).rev()` returning the
first `bit` with `byte & (1 << bit) != 0`. -/
def msbOfByte (b : Nat) : Nat → Option Nat
  | 0 => none
  | k + 1 => if b &&& (1 <<< k) ≠ 0 then some k else msbOfByte b k

/-- `height()`: bit index of the highest `1` (`Some(8 * index + bit)`);
`None` for a blank hash. -/
def SubotaiHash.height (h : SubotaiHash) : Option Nat :=
  match findTopByte h 20 with
  | some i =>
    match msbOfByte (h.raw i).val 8 with
    | some bit => some (8 * i.val + bit)
    | none => none
  | none => none

theorem and_shl_ne (b k : Nat) : (b &&& 1 <<< k ≠ 0) ↔ b.testBit k = true := by
  rw [Nat.shiftLeft_eq, one_mul, Nat.and_two_pow]
  cases hb : b.testBit k
  · simp
  · simp [(Nat.two_pow_pos k).ne']

theorem msbOfByte_some {b t : Nat} :
    ∀ {k}, k ≤ 8 → msbOfByte b k = some t →
      t < k ∧ b.testBit t = true ∧ ∀ u, t < u → u < k → b.testBit u = false := by
  intro k
  induction k with
  | zero => intro _ hk; simp [msbOfByte] at hk
  | succ k ih =>
    intro hk8 hsome
    rw [msbOfByte] at hsome
    by_cases hbit : b &&& 1 <<< k ≠ 0
    · rw [if_pos hbit] at hsome
      obtain rfl : k = t := by simpa using hsome
      exact ⟨by omega, (and_shl_ne b k).mp hbit, fun u hu hu' => by omega⟩
    · rw [if_neg hbit] at hsome
      obtain ⟨h1, h2, h3⟩ := ih (by omega) hsome
      refine ⟨by omega, h2, fun u hu hu' => ?_⟩
      by_cases huk : u = k
      · subst huk
        have := (and_shl_ne b u).not.mp hbit
        simpa using this
      · exact h3 u hu (by omega)

theorem msbOfByte_none {b : Nat} :
    ∀ {k}, msbOfByte b k = none → ∀ u, u < k → b.testBit u = false := by
  intro k
  induction k with
  | zero => intro _ u hu; omega
  | succ k ih =>
    intro hnone u hu
    rw [msbOfByte] at hnone
    by_cases hbit : b &&& 1 <<< k ≠ 0
    · rw [if_pos hbit] at hnone; exact absurd hnone (by simp)
    · rw [if_neg hbit] at hnone
      by_cases huk : u = k
      · subst huk
        have := (and_shl_ne b u).not.mp hbit
        simpa using this
      · exact ih hnone u (by omega)

theorem findTopByte_some {h : SubotaiHash} {i : Fin 20} :
    ∀ {k}, k ≤ 20 → findTopByte h k = some i →
      i.val < k ∧ (h.raw i).val ≠ 0 ∧
      ∀ j : Fin 20, i.val < j.val → j.val < k → (h.raw j).val = 0 := by
  intro k
  induction k with
  | zero => intro _ hk; simp [findTopByte] at hk
  | succ k ih =>
    intro hk20 hsome
    rw [findTopByte] at hsome
    rw [dif_pos (show k < 20 by omega)] at hsome
    by_cases hbyte : (h.raw ⟨k, by omega⟩).val ≠ 0
    · rw [if_pos hbyte] at hsome
      have hik : i = (⟨k, by omega⟩ : Fin 20) := by simpa [eq_comm] using hsome
      have hival : i.val = k := by rw [hik]
      refine ⟨by omega, ?_, fun j hj hj' => by omega⟩
      rw [hik]; exact hbyte
    · rw [if_neg hbyte] at hsome
      obtain ⟨h1, h2, h3⟩ := ih (by omega) hsome
      refine ⟨by omega, h2, fun j hj hj' => ?_⟩
      by_cases hjk : j.val = k
      · have : j = (⟨k, by omega⟩ : Fin 20) := Fin.ext hjk
        rw [this]
        simpa using hbyte
      · exact h3 j hj (by omega)

theorem findTopByte_none {h : SubotaiHash} :
    ∀ {k}, k ≤ 20 → findTopByte h k = none →
      ∀ j : Fin 20, j.val < k → (h.raw j).val = 0 := by
  intro k
  induction k with
  | zero => intro _ _ j hj; omega
  | succ k ih =>
    intro hk20 hnone j hj
    rw [findTopByte] at hnone
    rw [dif_pos (show k < 20 by omega)] at hnone
    by_cases hbyte : (h.raw ⟨k, by omega⟩).val ≠ 0
    · rw [if_pos hbyte] at hnone; exact absurd hnone (by simp)
    · rw [if_neg hbyte] at hnone
      by_cases hjk : j.val = k
      · have : j = (⟨k, by omega⟩ : Fin 20) := Fin.ext hjk
        rw [this]
        simpa using hbyte
      · exact ih (by omega) hnone j (by omega)

theorem testBit_eq_byte (h : SubotaiHash) (i : Fin 20) (t : Nat) (ht : t < 8) :
    h.testBit (8 * i.val + t) = (h.raw i).val.testBit t := by
  have hi := i.isLt
  have hlt : 8 * i.val + t < 160 := by omega
  simp only [SubotaiHash.testBit, dif_pos hlt]
  have hfin : (⟨(8 * i.val + t) / 8, by omega⟩ : Fin 20) = i :=
    Fin.ext (show (8 * i.val + t) / 8 = i.val by omega)
  rw [hfin, show (8 * i.val + t) % 8 = t from by omega]

theorem byte_eq_zero_of_low_bits (b : Nat) (hb : b < 256)
    (hu : ∀ u, u < 8 → b.testBit u = false) : b = 0 := by
  apply Nat.eq_of_testBit_eq
  intro u
  by_cases hu8 : u < 8
  · simp [hu u hu8, Nat.zero_testBit]
  · have hlt : b < 2 ^ u := lt_of_lt_of_le hb (by
      calc (256 : Nat) = 2 ^ 8 := by norm_num
      _ ≤ 2 ^ u := Nat.pow_le_pow_right (by norm_num) (by omega))
    simp [Nat.testBit_lt_two_pow hlt, Nat.zero_testBit]

/-- C5: `height()` returns `none` exactly on the blank identifier (all 160
bits zero); otherwise it returns `some i` with `i < 160` the index of the
most significant set bit. -/
theorem height_spec :
    (∀ h : SubotaiHash, h.height = none ↔ h = SubotaiHash.blank) ∧
    (∀ (h : SubotaiHash) (i : Nat), h.height = some i →
      i < 160 ∧ h.testBit i = true ∧ ∀ j : Nat, i < j → h.testBit j = false) := by
  constructor
  · intro h
    constructor
    · intro hnone
      cases hfb : findTopByte h 20 with
      | none =>
        have hz := findTopByte_none (le_refl 20) hfb
        apply SubotaiHash.ext_raw
        funext i
        have hz' : (h.raw i).val = 0 := hz i i.isLt
        exact Fin.ext (by simpa [SubotaiHash.blank] using hz')
      | some ib =>
        cases hmsb : msbOfByte (h.raw ib).val 8 with
        | some t =>
          simp [SubotaiHash.height, hfb, hmsb] at hnone
        | none =>
          obtain ⟨_, hnz, _⟩ := findTopByte_some (le_refl 20) hfb
          exact absurd
            (byte_eq_zero_of_low_bits (h.raw ib).val (h.raw ib).isLt
              (fun u hu => msbOfByte_none hmsb u hu)) hnz
    · intro hb
      subst hb
      decide
  · intro h i hsome
    cases hfb : findTopByte h 20 with
    | none => simp [SubotaiHash.height, hfb] at hsome
    | some ib =>
      cases hmsb : msbOfByte (h.raw ib).val 8 with
      | none => simp [SubotaiHash.height, hfb, hmsb] at hsome
      | some t =>
        simp only [SubotaiHash.height, hfb, hmsb] at hsome
        obtain rfl : 8 * ib.val + t = i := by simpa using hsome
        obtain ⟨hib20, hnz, hzero⟩ := findTopByte_some (le_refl 20) hfb
        obtain ⟨ht8, htbit, habove⟩ := msbOfByte_some (le_refl 8) hmsb
        have hi := ib.isLt
        refine ⟨by omega, ?_, ?_⟩
        · rw [testBit_eq_byte h ib t ht8]; exact htbit
        · intro j hj
          by_cases hj160 : j < 160
          · have hjb : j / 8 < 20 := by omega
            have hjt : j % 8 < 8 := Nat.mod_lt _ (by norm_num)
            have hjeq : j = 8 * (j / 8) + j % 8 := by omega
            rw [show j = 8 * ((⟨j / 8, hjb⟩ : Fin 20)).val + j % 8 from hjeq]
            rw [testBit_eq_byte h ⟨j / 8, hjb⟩ (j % 8) hjt]
            by_cases hjb_ib : j / 8 = ib.val
            · have hfin : (⟨j / 8, hjb⟩ : Fin 20) = ib := Fin.ext hjb_ib
              rw [hfin]
              exact habove (j % 8) (by omega) hjt
            · have hgt : ib.val < j / 8 := by omega
              rw [hzero ⟨j / 8, hjb⟩ hgt hjb]
              exact Nat.zero_testBit _
          · simp [SubotaiHash.testBit, dif_neg hj160]

/-- The iterator bit probe shared by all four bit-position iterators:
`self.hash.raw[index / 8] & (1 << (index % 8))`. For the states the program
constructs `index < rev ≤ 160`, so the bounds check always passes; the
`else 0` branch only totalizes the array access. -/
def bitValueAt (h : SubotaiHash) (i : Nat) : Nat :=
  if hi : i / 8 < 20 then (h.raw ⟨i / 8, hi⟩).val &&& (1 <<< (i % 8)) else 0

/-- Forward iteration (`next`) of the bit-position iterators
(`Zeroes`/`Ones`/`IntoZeroes`/`IntoOnes` all share the state
`{hash, index, rev}` and this loop), collected into a list: while
`index < rev`, probe the bit at `index`, advance `index`, and emit the old
index when the probe compares against zero as the iterator wants
(`want = true` for ones: `!= 0`; `want = false` for zeroes: `== 0`).
`fuel` dominates `rev - index`; every use starts at `index = 0, rev = 160`
with `fuel = 160`. -/
def nextList (want : Bool) (h : SubotaiHash) : Nat → Nat → Nat → List Nat
  | 0, _, _ => []
  | fuel + 1, index, rev =>
    if index < rev then
      let tail := nextList want h fuel (index + 1) rev
      if (bitValueAt h index != 0) = want then index :: tail else tail
    else []

/-- Reverse iteration (`next_back`) of the bit-position iterators, collected
into a list: while `index < rev`, probe the bit at `rev - 1`, decrement
`rev`, and emit it when it matches. Structural on `rev`. -/
def nextBackList (want : Bool) (h : SubotaiHash) (index : Nat) : Nat → List Nat
  | 0 => []
  | rev + 1 =>
    if index < rev + 1 then
      let tail := nextBackList want h index rev
      if (bitValueAt h rev != 0) = want then rev :: tail else tail
    else []

/-- `ones()`: borrowing iterator over the indices of the `1` bits, forward. -/
def SubotaiHash.ones (h : SubotaiHash) : List Nat := nextList true h 160 0 160

/-- `zeroes()`: borrowing iterator over the indices of the `0` bits, forward. -/
def SubotaiHash.zeroes (h : SubotaiHash) : List Nat := nextList false h 160 0 160

/-- `into_ones()`: consuming iterator over the indices of the `1` bits,
forward. -/
def SubotaiHash.into_ones (h : SubotaiHash) : List Nat := nextList true h 160 0 160

/-- `into_zeroes()`: consuming iterator over the indices of the `0` bits,
forward. -/
def SubotaiHash.into_zeroes (h : SubotaiHash) : List Nat := nextList false h 160 0 160

/-- `ones().rev()`: reverse iteration of the borrowing `1`-bit iterator. -/
def SubotaiHash.ones_rev (h : SubotaiHash) : List Nat := nextBackList true h 0 160

/-- `zeroes().rev()`: reverse iteration of the borrowing `0`-bit iterator. -/
def SubotaiHash.zeroes_rev (h : SubotaiHash) : List Nat := nextBackList false h 0 160

/-- `into_ones().rev()`: reverse iteration of the consuming `1`-bit
iterator. -/
def SubotaiHash.into_ones_rev (h : SubotaiHash) : List Nat := nextBackList true h 0 160

/-- `into_zeroes().rev()`: reverse iteration of the consuming `0`-bit
iterator. -/
def SubotaiHash.into_zeroes_rev (h : SubotaiHash) : List Nat := nextBackList false h 0 160

/-- Spec-side description: the ascending indices in `0..160` whose bit
equals `want`. -/
def matchIdx (h : SubotaiHash) (want : Bool) : List Nat :=
  (List.range 160).filter (fun i => h.testBit i == want)

theorem bitValueAt_ne (h : SubotaiHash) (i : Nat) (hi : i < 160) :
    (bitValueAt h i != 0) = h.testBit i := by
  have hib : i / 8 < 20 := by omega
  simp only [bitValueAt, dif_pos hib, SubotaiHash.testBit, dif_pos hi]
  rw [Nat.shiftLeft_eq, one_mul, Nat.and_two_pow]
  cases hb : (h.raw ⟨i / 8, hib⟩).val.testBit (i % 8)
  · simp
  · simp [(Nat.two_pow_pos (i % 8)).ne']

theorem nextList_eq (want : Bool) (h : SubotaiHash) :
    ∀ fuel index rev, rev - index ≤ fuel →
      nextList want h fuel index rev =
        (List.range' index (rev - index)).filter
          (fun i => (bitValueAt h i != 0) == want) := by
  intro fuel
  induction fuel with
  | zero =>
    intro index rev hle
    have h0 : rev - index = 0 := by omega
    simp [nextList, h0]
  | succ fuel ih =>
    intro index rev hle
    rw [nextList]
    by_cases hir : index < rev
    · rw [if_pos hir]
      have hn : rev - index = (rev - (index + 1)) + 1 := by omega
      rw [hn, List.range'_succ, List.filter_cons, ih (index + 1) rev (by omega)]
      by_cases hbit : (bitValueAt h index != 0) = want
      · simp [hbit]
      · simp [hbit]
    · rw [if_neg hir]
      have h0 : rev - index = 0 := by omega
      simp [h0]

theorem nextBackList_eq (want : Bool) (h : SubotaiHash) (index : Nat) :
    ∀ rev, nextBackList want h index rev =
      ((List.range' index (rev - index)).filter
        (fun i => (bitValueAt h i != 0) == want)).reverse := by
  intro rev
  induction rev with
  | zero => simp [nextBackList]
  | succ rev ih =>
    rw [nextBackList]
    by_cases hir : index < rev + 1
    · rw [if_pos hir]
      have hn : rev + 1 - index = (rev - index) + 1 := by omega
      have hcat : List.range' index (rev + 1 - index) =
          List.range' index (rev - index) ++ [rev] := by
        rw [hn, List.range'_concat]
        have hend : index + 1 * (rev - index) = rev := by omega
        rw [hend]
      rw [hcat, List.filter_append, List.reverse_append, ih]
      by_cases hbit : (bitValueAt h rev != 0) = want
      · simp [hbit]
      · simp [hbit]
    · rw [if_neg hir]
      have h0 : rev + 1 - index = 0 := by omega
      simp [h0]

theorem filter_bitValue_eq_matchIdx (h : SubotaiHash) (want : Bool) :
    (List.range' 0 160).filter (fun i => (bitValueAt h i != 0) == want) =
      matchIdx h want := by
  rw [matchIdx, List.range_eq_range']
  apply List.filter_congr
  intro i hi
  obtain ⟨k, hk, hik⟩ := List.mem_range'.mp hi
  have hi160 : i < 160 := by omega
  rw [bitValueAt_ne h i hi160]

/-- C7: each of the four bit-position iterators (set-bit vs. unset-bit,
borrowing vs. owning) yields in forward order exactly the ascending bit
indices in `0..159` whose bit matches the requested value, and in reverse
order the same indices descending; in particular, forward set-bit iteration
of the identifier with exactly bits {5, 20, 40} set yields `[5, 20, 40]`. -/
theorem iterators_spec :
    (∀ h : SubotaiHash,
      h.ones = matchIdx h true ∧ h.zeroes = matchIdx h false ∧
      h.into_ones = matchIdx h true ∧ h.into_zeroes = matchIdx h false ∧
      h.ones_rev = (matchIdx h true).reverse ∧
      h.zeroes_rev = (matchIdx h false).reverse ∧
      h.into_ones_rev = (matchIdx h true).reverse ∧
      h.into_zeroes_rev = (matchIdx h false).reverse) ∧
    (((SubotaiHash.blank.flip_bit 5).flip_bit 20).flip_bit 40).ones =
      [5, 20, 40] := by
  have hfwd : ∀ (want : Bool) (h : SubotaiHash),
      nextList want h 160 0 160 = matchIdx h want := by
    intro want h
    rw [nextList_eq want h 160 0 160 (by omega)]
    simpa using filter_bitValue_eq_matchIdx h want
  have hbwd : ∀ (want : Bool) (h : SubotaiHash),
      nextBackList want h 0 160 = (matchIdx h want).reverse := by
    intro want h
    rw [nextBackList_eq want h 0 160]
    have := filter_bitValue_eq_matchIdx h want
    simp only [Nat.sub_zero]
    rw [this]
  constructor
  · intro h
    exact ⟨hfwd true h, hfwd false h, hfwd true h, hfwd false h,
           hbwd true h, hbwd false h, hbwd true h, hbwd false h⟩
  · decide

/-- Body of `PartialOrd::partial_cmp`: walk a list of byte indices, compare
the bytes (`a.cmp(b)` on `u8`), return on the first unequal pair. -/
def pcmpBytes (a b : SubotaiHash) : List (Fin 20) → Option Ordering
  | [] => none
  | i :: rest =>
    match compare (a.raw i).val (b.raw i).val with
    | .lt => some .lt
    | .gt => some .gt
    | .eq => pcmpBytes a b rest

/-- `PartialOrd::partial_cmp`: `self.raw.iter().rev().zip(other.raw.iter().rev())`
compares bytes from most significant (index 19) down to least significant
(index 0); the first unequal byte decides; `None` when every byte is equal. -/
def SubotaiHash.pcmp (a b : SubotaiHash) : Option Ordering :=
  pcmpBytes a b (List.finRange 20).reverse

/-- `Ord::cmp`: `partial_cmp`, with the `None` (all bytes equal) case
resolved to `Equal`. -/
def SubotaiHash.cmp (a b : SubotaiHash) : Ordering :=
  match a.pcmp b with
  | some order => order
  | none => Ordering.eq

/-- The 20 byte values of a hash, least significant first. -/
def bytesList (h : SubotaiHash) : List Nat :=
  (List.finRange 20).map fun i => (h.raw i).val

/-- Spec-side: the hash read as an unsigned big integer (base-256,
little-endian digits). -/
def SubotaiHash.toNat (h : SubotaiHash) : Nat :=
  Nat.ofDigits 256 (bytesList h)

/-- First difference of two lists of byte values, scanning from the head. -/
def firstDiff : List Nat → List Nat → Option Ordering
  | x :: xs, y :: ys =>
    match compare x y with
    | .eq => firstDiff xs ys
    | .lt => some .lt
    | .gt => some .gt
  | _, _ => none

theorem pcmpBytes_eq_firstDiff (a b : SubotaiHash) :
    ∀ l : List (Fin 20), pcmpBytes a b l =
      firstDiff (l.map fun i => (a.raw i).val) (l.map fun i => (b.raw i).val) := by
  intro l
  induction l with
  | nil => rfl
  | cons i rest ih =>
    cases hcmp : compare (a.raw i).val (b.raw i).val with
    | lt => simp [pcmpBytes, firstDiff, hcmp]
    | gt => simp [pcmpBytes, firstDiff, hcmp]
    | eq => simp [pcmpBytes, firstDiff, hcmp, ih]

theorem firstDiff_self : ∀ l : List Nat, firstDiff l l = none := by
  intro l
  induction l with
  | nil => rfl
  | cons x xs ih => simp [firstDiff, Nat.compare_eq_eq.mpr rfl, ih]

theorem firstDiff_spec : ∀ rxs rys : List Nat, rxs.length = rys.length →
    (∀ x ∈ rxs, x < 256) → (∀ y ∈ rys, y < 256) →
    (firstDiff rxs rys = none → rxs = rys) ∧
    (firstDiff rxs rys = some .lt →
      Nat.ofDigits 256 rxs.reverse < Nat.ofDigits 256 rys.reverse) ∧
    (firstDiff rxs rys = some .gt →
      Nat.ofDigits 256 rys.reverse < Nat.ofDigits 256 rxs.reverse) ∧
    firstDiff rxs rys ≠ some .eq := by
  intro rxs
  induction rxs with
  | nil =>
    intro rys hlen _ _
    have hr : rys = [] := List.length_eq_zero.mp (by simpa using hlen.symm)
    subst hr
    exact ⟨fun _ => rfl, fun hfd => by simp [firstDiff] at hfd,
           fun hfd => by simp [firstDiff] at hfd, by simp [firstDiff]⟩
  | cons d t ih =>
    intro rys hlen hx hy
    cases rys with
    | nil => simp at hlen
    | cons e u =>
      have hlen' : t.length = u.length := by simpa using hlen
      have hxt : ∀ x ∈ t, x < 256 := fun x hxm => hx x (List.mem_cons_of_mem _ hxm)
      have hyu : ∀ y ∈ u, y < 256 := fun y hym => hy y (List.mem_cons_of_mem _ hym)
      have hd256 : d < 256 := hx d (List.mem_cons_self _ _)
      have he256 : e < 256 := hy e (List.mem_cons_self _ _)
      obtain ⟨ihnone, ihlt, ihgt, ihne⟩ := ih u hlen' hxt hyu
      have hvt : Nat.ofDigits 256 t.reverse < 256 ^ t.length := by
        have := Nat.ofDigits_lt_base_pow_length (b := 256) (by norm_num)
          (fun x hxm => hxt x (List.mem_reverse.mp hxm))
        simpa using this
      have hvu : Nat.ofDigits 256 u.reverse < 256 ^ t.length := by
        have := Nat.ofDigits_lt_base_pow_length (b := 256) (by norm_num)
          (fun y hym => hyu y (List.mem_reverse.mp hym))
        rw [hlen']
        simpa using this
      have hvds : Nat.ofDigits 256 (d :: t).reverse =
          Nat.ofDigits 256 t.reverse + 256 ^ t.length * d := by
        rw [List.reverse_cons, Nat.ofDigits_append, Nat.ofDigits_singleton]
        simp
      have hves : Nat.ofDigits 256 (e :: u).reverse =
          Nat.ofDigits 256 u.reverse + 256 ^ t.length * e := by
        rw [List.reverse_cons, Nat.ofDigits_append, Nat.ofDigits_singleton]
        simp [hlen']
      rcases Nat.lt_trichotomy d e with hde | hde | hde
      · have hcmp : compare d e = Ordering.lt := Nat.compare_eq_lt.mpr hde
        refine ⟨fun hfd => ?_, fun _ => ?_, fun hfd => ?_, ?_⟩
        · simp [firstDiff, hcmp] at hfd
        · rw [hvds, hves]
          have hstep : 256 ^ t.length * (d + 1) ≤ 256 ^ t.length * e :=
            Nat.mul_le_mul_left _ (by omega)
          rw [Nat.mul_succ] at hstep
          omega
        · simp [firstDiff, hcmp] at hfd
        · simp [firstDiff, hcmp]
      · subst hde
        have hcmp : compare d d = Ordering.eq := Nat.compare_eq_eq.mpr rfl
        refine ⟨fun hfd => ?_, fun hfd => ?_, fun hfd => ?_, ?_⟩
        · simp only [firstDiff, hcmp] at hfd
          rw [ihnone hfd]
        · simp only [firstDiff, hcmp] at hfd
          rw [hvds, hves]
          have := ihlt hfd
          omega
        · simp only [firstDiff, hcmp] at hfd
          rw [hvds, hves]
          have := ihgt hfd
          omega
        · simp only [firstDiff, hcmp]
          exact ihne
      · have hcmp : compare d e = Ordering.gt := Nat.compare_eq_gt.mpr hde
        refine ⟨fun hfd => ?_, fun hfd => ?_, fun _ => ?_, ?_⟩
        · simp [firstDiff, hcmp] at hfd
        · simp [firstDiff, hcmp] at hfd
        · rw [hvds, hves]
          have hstep : 256 ^ t.length * (e + 1) ≤ 256 ^ t.length * d :=
            Nat.mul_le_mul_left _ (by omega)
          rw [Nat.mul_succ] at hstep
          omega
        · simp [firstDiff, hcmp]

theorem bytesList_length (h : SubotaiHash) : (bytesList h).length = 20 := by
  simp [bytesList]

theorem bytesList_bound (h : SubotaiHash) : ∀ x ∈ bytesList h, x < 256 := by
  intro x hx
  simp only [bytesList, List.mem_map] at hx
  obtain ⟨i, _, rfl⟩ := hx
  exact (h.raw i).isLt

theorem bytesList_inj {a b : SubotaiHash} (hab : bytesList a = bytesList b) :
    a = b := by
  apply SubotaiHash.ext_raw
  funext i
  exact Fin.ext (List.map_inj_left.mp hab i (List.mem_finRange i))

theorem pcmp_eq_firstDiff (a b : SubotaiHash) :
    a.pcmp b = firstDiff (bytesList a).reverse (bytesList b).reverse := by
  rw [SubotaiHash.pcmp, pcmpBytes_eq_firstDiff, bytesList, bytesList,
      List.map_reverse, List.map_reverse]

/-- C4: comparison is byte-wise from the most significant byte down, the
first unequal byte deciding numerically: the partial comparison returns
`none` exactly when the two identifiers are equal, and the total comparison
agrees with numeric comparison of the identifiers read as unsigned
big-endian integers (`toNat`). -/
theorem cmp_spec :
    (∀ a b : SubotaiHash, a.pcmp b = none ↔ a = b) ∧
    (∀ a b : SubotaiHash, a.cmp b = compare a.toNat b.toNat) := by
  have hspec : ∀ a b : SubotaiHash,
      (firstDiff (bytesList a).reverse (bytesList b).reverse = none →
        (bytesList a).reverse = (bytesList b).reverse) ∧
      (firstDiff (bytesList a).reverse (bytesList b).reverse = some .lt →
        Nat.ofDigits 256 (bytesList a).reverse.reverse <
          Nat.ofDigits 256 (bytesList b).reverse.reverse) ∧
      (firstDiff (bytesList a).reverse (bytesList b).reverse = some .gt →
        Nat.ofDigits 256 (bytesList b).reverse.reverse <
          Nat.ofDigits 256 (bytesList a).reverse.reverse) ∧
      firstDiff (bytesList a).reverse (bytesList b).reverse ≠ some .eq := by
    intro a b
    exact firstDiff_spec (bytesList a).reverse (bytesList b).reverse
      (by simp [bytesList_length a, bytesList_length b])
      (fun x hx => bytesList_bound a x (List.mem_reverse.mp hx))
      (fun y hy => bytesList_bound b y (List.mem_reverse.mp hy))
  have hnone : ∀ a b : SubotaiHash, a.pcmp b = none ↔ a = b := by
    intro a b
    constructor
    · intro hfd
      rw [pcmp_eq_firstDiff] at hfd
      have hrev := (hspec a b).1 hfd
      apply bytesList_inj
      have := congrArg List.reverse hrev
      simpa using this
    · intro hab
      subst hab
      rw [pcmp_eq_firstDiff]
      exact firstDiff_self _
  refine ⟨hnone, ?_⟩
  intro a b
  cases hp : a.pcmp b with
  | none =>
    have hab := (hnone a b).mp hp
    subst hab
    simp only [SubotaiHash.cmp, hp]
    exact (Nat.compare_eq_eq.mpr rfl).symm
  | some o =>
    simp only [SubotaiHash.cmp, hp]
    rw [pcmp_eq_firstDiff] at hp
    obtain ⟨_, hlt, hgt, hne⟩ := hspec a b
    cases o with
    | lt =>
      have hv := hlt hp
      simp only [List.reverse_reverse] at hv
      exact (Nat.compare_eq_lt.mpr hv).symm
    | gt =>
      have hv := hgt hp
      simp only [List.reverse_reverse] at hv
      exact (Nat.compare_eq_gt.mpr hv).symm
    | eq => exact absurd hp hne

/-- One uppercase hexadecimal digit, as Rust's `{:X}` renders it
(`0`–`9` then `A`–`F`). -/
def hexDigit (n : Nat) : Char :=
  if n < 10 then Char.ofNat (48 + n) else Char.ofNat (55 + n)

/-- Rust's `{:02X}` of a byte: exactly two uppercase hex digits, zero
padded. -/
def byteHex (b : Nat) : String :=
  ⟨[hexDigit (b / 16), hexDigit (b % 16)]⟩

/-- The `Display::fmt` loop over `self.raw.iter().rev()`: the `leftpad_over`
flag becomes (and stays) true at the first nonzero byte; from then on every
byte is written with `{:02X}`. -/
def displayAux : List Nat → Bool → String
  | [], _ => ""
  | b :: rest, leftpadOver =>
    let lp := leftpadOver || decide (b > 0)
    (if lp then byteHex b else "") ++ displayAux rest lp

/-- `Display::fmt`: `"0x["`, the bytes most significant first with leading
zero bytes suppressed, `"]"`. -/
def SubotaiHash.display (h : SubotaiHash) : String :=
  "0x[" ++ displayAux (bytesList h).reverse false ++ "]"

/-- Spec-side: concatenation of the `{:02X}` renderings of a byte list. -/
def hexConcat : List Nat → String
  | [] => ""
  | b :: rest => byteHex b ++ hexConcat rest

theorem displayAux_true (l : List Nat) : displayAux l true = hexConcat l := by
  induction l with
  | nil => rfl
  | cons b rest ih => simp [displayAux, hexConcat, ih]

theorem displayAux_false (l : List Nat) :
    displayAux l false = hexConcat (l.dropWhile (fun b => b == 0)) := by
  induction l with
  | nil => rfl
  | cons b rest ih =>
    by_cases hb : b > 0
    · have hb0 : (b == 0) = false := by simpa using by omega
      simp [displayAux, hexConcat, hb, List.dropWhile_cons, hb0, displayAux_true]
    · have hb0 : b = 0 := by omega
      subst hb0
      simp [displayAux, List.dropWhile_cons, ih]

/-- C9: the display rendering is `"0x["` ++ the hexadecimal bytes, most
significant first with the leading run of all-zero bytes suppressed, each
shown byte as exactly two zero-padded uppercase hex digits, ++ `"]"`; the
all-zero identifier renders as `"0x[]"`. -/
theorem display_spec :
    (∀ h : SubotaiHash, h.display =
      "0x[" ++ hexConcat ((bytesList h).reverse.dropWhile (fun b => b == 0)) ++ "]") ∧
    (∀ b : Nat, (byteHex b).length = 2) ∧
    SubotaiHash.blank.display = "0x[]" := by
  refine ⟨?_, ?_, ?_⟩
  · intro h
    rw [SubotaiHash.display, displayAux_false]
  · intro b
    rfl
  · decide

/-- The `for index in distance_ones.rev()` loop of `random_at_distance`:
flip the current bit of the candidate, re-check the height of the XOR
distance; return on an exact match, or, when the height drops below the
target, flip the bit at exactly `distance` and return; otherwise continue.
When the iterator is exhausted the current candidate is returned as is. -/
def radLoop (reference : SubotaiHash) (distance : Nat)
    (random_hash : SubotaiHash) : List Nat → SubotaiHash
  | [] => random_hash
  | index :: rest =>
    let r := random_hash.flip_bit index
    match (r.xorRef reference).height with
    | some ht =>
      if ht = distance then r
      else if ht < distance then r.flip_bit distance
      else radLoop reference distance r rest
    | none => radLoop reference distance r rest

/-- `random_at_distance(reference, distance)`: start from `random()`, then
walk the set bits of the initial XOR distance from most significant to
least significant (`into_ones().rev()`), adjusting the candidate. -/
def SubotaiHash.random_at_distance (reference : SubotaiHash) (distance : Nat) :
    SubotaiHash :=
  let random_hash := SubotaiHash.random ()
  radLoop reference distance random_hash
    ((random_hash.xorRef reference).into_ones_rev)

/-- C1 (code bug): with `random()` returning the blank hash (its
`fill_bytes` line is commented out in the source), the initial XOR distance
to a blank reference has no set bits, the loop body never runs, and
`random_at_distance(blank, 30)` returns the blank hash — whose XOR distance
to the reference has height `none`, not `some 30`. The crate's own test
`random_at_a_distance` exercises exactly this input (its reference is
`random()` = blank) and panics on the `unwrap`. -/
theorem random_at_distance_fails :
    SubotaiHash.random_at_distance SubotaiHash.blank 30 = SubotaiHash.blank ∧
    ((SubotaiHash.random_at_distance SubotaiHash.blank 30).xorRef
        SubotaiHash.blank).height ≠ some 30 := by
  constructor
  · decide
  · decide

/-- C10: `random_at_distance` terminates for every reference and every
distance (also distances at or above 160): it is one run of `radLoop` over
the reverse set-bit iterator of the initial XOR distance, a list of at most
160 indices, and `radLoop` consumes that list structurally. -/
theorem random_at_distance_total :
    (∀ h : SubotaiHash, h.into_ones_rev.length ≤ 160) ∧
    (∀ (reference : SubotaiHash) (distance : Nat),
      SubotaiHash.random_at_distance reference distance =
        radLoop reference distance (SubotaiHash.random ())
          (((SubotaiHash.random ()).xorRef reference).into_ones_rev)) := by
  constructor
  · intro h
    rw [SubotaiHash.into_ones_rev, nextBackList_eq]
    simp only [List.length_reverse, Nat.sub_zero]
    exact le_trans (List.length_filter_le _ _) (by simp)
  · intro reference distance
    rfl

/-- C2 (code bug): in the code as written, `random()` deterministically
returns the blank hash (the `fill_bytes` call is commented out), so two
successive calls yield the *same* identifier; the crate's own test
`random_generation` asserts `random() != random()` and fails. -/
theorem random_eq_random_eq_blank :
    SubotaiHash.random () = SubotaiHash.random () ∧
    SubotaiHash.random () = SubotaiHash.blank :=
  ⟨rfl, rfl⟩
